import Mathlib

/-!
# Verification of the duplicate-file finder (`find_duplicate_files_with_same_digest`)

Shallow embedding of the duplicate-detection engine:

* `src/args.rs`   — the configuration struct `Arguments` and `get_size_range`;
* `src/with_jwalk.rs` — the directory walker `get_all_files` /
  `analyze_dir_entry_results`, built on the `jwalk` crate.

Filesystem trees are embedded as an inductive type `FSNode`; the `jwalk`
traversal configured in `get_all_files` (depth bounds, `skip_hidden`
subtree pruning, per-entry `process_read_dir` processing) is embedded as a
pure function producing the stream of `Result<DirEntry, Error>` values the
walker observes.  Machine integers (`u64`, `usize`) are embedded as `Nat`;
the operations involved (comparisons, `unwrap_or`) never overflow, so no
modular reduction is needed.  Fallible operations return `Except`/`Option`.

The size-bucketing grouper, hash confirmation stage and duplicate groups
are part of this repository but their source file is not under `src/`;
they are modelled from the spec (see the `Modelled from the spec:` doc
comments below).
-/

namespace FindDup

/-- A filesystem path, as the list of its components. -/
abbrev FsPath := List String

/-- From `src`: the candidate key, a file size together with an optional
content hash (`Key` in the repository; the hash is embedded as a `Nat`
digest value). -/
structure Key where
  size : Nat
  hash : Option Nat
deriving DecidableEq

/-- `Key::new(size, hash)`. -/
def Key.new (size : Nat) (hash : Option Nat) : Key := { size := size, hash := hash }

/-- From `src`: a file record `FileInfo { key, path }`. -/
structure FileInfo where
  key : Key
  path : FsPath
deriving DecidableEq

/-- The file type reported by a directory entry's `file_type()`. -/
inductive FileType where
  | file
  | dir
  | symlink
  | special
deriving DecidableEq

/-- An abstract filesystem node.  A `file`'s `meta` is the result of
reading its metadata: `some size` on success, `none` when the metadata
read fails.  An `unreadable` child stands for a directory entry whose
read fails altogether (it surfaces as an `Err` in the walk stream). -/
inductive FSNode where
  | file (name : String) (meta : Option Nat)
  | dir (name : String) (children : List FSNode)
  | symlink (name : String)
  | special (name : String)
  | unreadable (name : String)

/-- The name of a node (the last path component it contributes). -/
def FSNode.name : FSNode → String
  | .file n _ => n
  | .dir n _ => n
  | .symlink n => n
  | .special n => n
  | .unreadable n => n

/-- A successfully read directory entry, as `jwalk` hands it to
`process_read_dir`: file type, metadata read result, full path and depth
(root = depth 0). -/
structure DirEntry where
  ftype : FileType
  metadata : Option Nat
  path : FsPath
  depth : Nat
deriving DecidableEq

/-- The entry produced for a node during a directory read.  An
`unreadable` node yields the `Err` case.  Directories, symlinks and
special files carry an irrelevant metadata value (the walker never looks
at it: it filters on `is_file()` first). -/
def mkDirEntry (p : FsPath) (d : Nat) : FSNode → Except Unit DirEntry
  | .file n m => .ok { ftype := .file, metadata := m, path := p ++ [n], depth := d }
  | .dir n _ => .ok { ftype := .dir, metadata := some 0, path := p ++ [n], depth := d }
  | .symlink n => .ok { ftype := .symlink, metadata := some 0, path := p ++ [n], depth := d }
  | .special n => .ok { ftype := .special, metadata := some 0, path := p ++ [n], depth := d }
  | .unreadable _ => .error ()

/-- `min_depth` bound test: absent bound passes unconditionally. -/
def depthGe : Option Nat → Nat → Bool
  | none, _ => true
  | some m, d => m ≤ d

/-- `max_depth` bound test: absent bound passes unconditionally. -/
def depthLe : Option Nat → Nat → Bool
  | none, _ => true
  | some m, d => d ≤ m

/-- An entry at depth `d` is yielded iff `min_depth <= d <= max_depth`
(each bound when present). -/
def inDepthRange (minD maxD : Option Nat) (d : Nat) : Bool :=
  depthGe minD d && depthLe maxD d

/-- The hidden-file marker test used by `jwalk`'s `skip_hidden`. -/
def isHidden (name : String) : Bool := name.startsWith "."

/-- The `jwalk` traversal configured in `get_all_files`
(`src/with_jwalk.rs` lines 15–22), embedded over a forest of nodes: the
stream of `Result<DirEntry, Error>` values for the children (at depth
`d`, path prefix `p`) of a directory being read, and recursively of their
subtrees.  `skip_hidden` (`omit_hidden`) drops a hidden-named child and
its whole subtree; an entry is yielded when its depth lies in
`[min_depth, max_depth]`; a directory is descended into only while its
children's depth still satisfies `max_depth`. -/
def walkForest (minD maxD : Option Nat) (skipHidden : Bool) :
    FsPath → Nat → List FSNode → List (Except Unit DirEntry)
  | _, _, [] => []
  | p, d, c :: rest =>
    (if skipHidden && isHidden c.name then []
     else
       (if inDepthRange minD maxD d then [mkDirEntry p d c] else [])
       ++ (match c with
           | FSNode.dir n cs =>
             if depthLe maxD (d + 1) then walkForest minD maxD skipHidden (p ++ [n]) (d + 1) cs
             else []
           | _ => []))
    ++ walkForest minD maxD skipHidden p d rest

/-- The per-entry body of `analyze_dir_entry_results`
(`src/with_jwalk.rs` lines 58–71): the final `client_state` of one
directory entry.  Entries that are not regular files are never touched
(state stays `None`); for a regular file, a metadata failure leaves the
state `None`, otherwise the state becomes `Some(FileInfo)` exactly when
`min_size <= file_size <= max_size`. -/
def analyzeEntry (min_size max_size : Nat) (e : DirEntry) : Option FileInfo :=
  if e.ftype = FileType.file then
    match e.metadata with
    | some file_size =>
      if min_size ≤ file_size && file_size ≤ max_size then
        some { key := Key.new file_size none, path := e.path }
      else none
    | none => none
  else none

/-- One step of `analyze_dir_entry_results` on one element of
`dir_entry_results`: an `Err` element is left untouched; an `Ok` entry
ends with the `client_state` computed by `analyzeEntry`. -/
def entryStep (min_size max_size : Nat) :
    Except Unit DirEntry → Except Unit (DirEntry × Option FileInfo)
  | .error e => .error e
  | .ok d => .ok (d, analyzeEntry min_size max_size d)

/-- `analyze_dir_entry_results` (`src/with_jwalk.rs` lines 37–72): every
`Ok` entry of the batch receives its `client_state`.  The source runs the
per-entry closure over a rayon parallel iterator; each entry's state
depends only on that entry, so the result is the entrywise map (the
scheduling-independence of the parallel run is proved below from
`runSched`). -/
def analyze_dir_entry_results (results : List (Except Unit DirEntry))
    (min_size max_size : Nat) : List (Except Unit (DirEntry × Option FileInfo)) :=
  results.map (entryStep min_size max_size)

/-- `get_all_files` (`src/with_jwalk.rs` lines 9–31).  `rootRes` is the
result of `get_path(arguments)?` together with reading the root
directory: on error, the error propagates before any traversal; on
success the walk runs (root = depth 0, its children at depth 1),
`process_read_dir` attaches the client states, `flatten` drops the `Err`
elements and `filter_map` keeps the attached `client_state`s.  The root
entry itself is a directory whose `client_state` is never set, so it
contributes no record and is omitted from the stream. -/
def get_all_files (rootRes : Except String (FsPath × List FSNode))
    (minD maxD : Option Nat) (omit_hidden : Bool)
    (min_size max_size : Nat) : Except String (List FileInfo) :=
  match rootRes with
  | .error e => .error e
  | .ok (rootPath, children) =>
    .ok ((analyze_dir_entry_results (walkForest minD maxD omit_hidden rootPath 1 children)
            min_size max_size).filterMap
      (fun r => match r with
        | .ok (_, client_state) => client_state
        | .error _ => none))

/-! ## Configuration (`src/args.rs`) -/

/-- The largest representable `u64` value, `std::u64::MAX`. -/
def u64Max : Nat := 2 ^ 64 - 1

/-- The configuration struct `Arguments` (`src/args.rs`): the fields the
engine consumes.  CLI-only fields (shell-completion generator, terminal
clearing, result format, verbosity, timing, hash algorithm choice) do not
affect the claims and are omitted. -/
structure Arguments where
  min_depth : Option Nat
  max_depth : Option Nat
  min_size : Option Nat
  max_size : Option Nat
  omit_hidden : Bool
  full_path : Bool
  sort : Bool
deriving DecidableEq

/-- Membership in an inclusive range, `RangeInclusive<u64>` embedded as a
pair of bounds. -/
def rangeContains (r : Nat × Nat) (s : Nat) : Bool :=
  r.1 ≤ s && s ≤ r.2

/-- `Arguments::get_size_range` (`src/args.rs` lines 229–238):
`self.min_size.unwrap_or(0) ..= self.max_size.unwrap_or(u64::MAX)`. -/
def Arguments.get_size_range (args : Arguments) : Nat × Nat :=
  (args.min_size.getD 0, args.max_size.getD u64Max)

/-! ## Declarative view of the tree

`treeFilesForest` lists every regular file of a forest, with the data the
filters look at: full path, depth, metadata read result, and the chain of
entry names leading to it from the forest root (used by the hidden
filter).  It is the declarative yardstick the walker is compared with. -/

/-- One regular file of the tree: its path, depth, metadata, and the
chain of names from the forest root down to the file itself. -/
structure TreeFile where
  path : FsPath
  depth : Nat
  meta : Option Nat
  chain : List String
deriving DecidableEq

/-- All regular files in a forest located at path prefix `p`, depth `d`. -/
def treeFilesForest : FsPath → Nat → List FSNode → List TreeFile
  | _, _, [] => []
  | p, d, c :: rest =>
    (match c with
     | FSNode.file n m => [{ path := p ++ [n], depth := d, meta := m, chain := [n] }]
     | FSNode.dir n cs =>
       (treeFilesForest (p ++ [n]) (d + 1) cs).map
         (fun tf => { tf with chain := n :: tf.chain })
     | _ => [])
    ++ treeFilesForest p d rest

/-- The declarative filter: the record a tree file contributes, if any.
A file survives iff its metadata is readable, no chain component is
hidden (when `omit_hidden`), its depth lies in the depth range and its
size in the size range. -/
def declFilter (minD maxD : Option Nat) (omit_hidden : Bool)
    (min_size max_size : Nat) (tf : TreeFile) : Option FileInfo :=
  match tf.meta with
  | some s =>
    if (!omit_hidden || tf.chain.all (fun n => !isHidden n))
        && inDepthRange minD maxD tf.depth
        && (min_size ≤ s && s ≤ max_size) then
      some { key := Key.new s none, path := tf.path }
    else none
  | none => none

/-! ## Downstream pipeline (spec-modelled)

The size-bucketing grouper, hash confirmation stage and Duplicate Groups
are code of this repository not under `src/`; they are modelled from the
spec below. -/

/-- A confirmed duplicate group. -/
structure DuplicateGroup where
  representative_size : Nat
  members : List FsPath
deriving DecidableEq

/-- Modelled from the spec: the Size-Bucketing Grouper partitions the
walker's records by size (the distinct sizes, in first-appearance
order). -/
def distinctSizes (files : List FileInfo) : List Nat :=
  (files.map (fun fi => fi.key.size)).dedup

/-- Modelled from the spec: the bucket of all records sharing size `s`. -/
def sizeBucket (files : List FileInfo) (s : Nat) : List FileInfo :=
  files.filter (fun fi => fi.key.size == s)

/-- Modelled from the spec: the grouper's output — one `(size, bucket)`
pair per size, any bucket with fewer than two members dropped. -/
def groupBySize (files : List FileInfo) : List (Nat × List FileInfo) :=
  (distinctSizes files).filterMap (fun s =>
    let b := sizeBucket files s
    if 2 ≤ b.length then some (s, b) else none)

/-- Modelled from the spec: the Hash Confirmation stage's per-file step.
`hashOf` abstracts "read the file's content and hash it with the
configured algorithm", returning `none` when the file cannot be read (in
which case the record is dropped from its bucket).  On success the
record's key is mutated once to attach the hash. -/
def attachHash (hashOf : FsPath → Option Nat) (fi : FileInfo) : Option FileInfo :=
  (hashOf fi.path).map (fun h => { key := Key.new fi.key.size (some h), path := fi.path })

/-- Modelled from the spec: confirm one multi-member size bucket —
hash every member (dropping unreadable ones), partition by hash, and keep
each sub-bucket of at least two members as a Duplicate Group. -/
def confirmBucket (hashOf : FsPath → Option Nat) (s : Nat)
    (b : List FileInfo) : List DuplicateGroup :=
  let hashed := b.filterMap (attachHash hashOf)
  ((hashed.filterMap (fun fi => fi.key.hash)).dedup).filterMap (fun h =>
    let sub := hashed.filter (fun fi => fi.key.hash == some h)
    if 2 ≤ sub.length then
      some { representative_size := s, members := sub.map (fun fi => fi.path) }
    else none)

/-- Modelled from the spec: the full downstream pipeline on the walker's
records — group by size, then confirm every multi-member bucket. -/
def find_duplicate_files (hashOf : FsPath → Option Nat)
    (files : List FileInfo) : List DuplicateGroup :=
  (groupBySize files).flatMap (fun sb => confirmBucket hashOf sb.1 sb.2)

/-- A group's identity when groups are compared as unordered sets:
its size together with the multiset of its member paths. -/
def canonGroup (g : DuplicateGroup) : Nat × Multiset FsPath :=
  (g.representative_size, (g.members : Multiset FsPath))

/-- A run's output compared as an unordered collection of unordered
groups. -/
def canonGroups (gs : List DuplicateGroup) : Multiset (Nat × Multiset FsPath) :=
  (gs.map canonGroup : List (Nat × Multiset FsPath))

/-! ## The parallel per-entry run (`par_iter_mut`) as a scheduled loop -/

/-- One scheduled step of the parallel loop of
`analyze_dir_entry_results`: the worker handling index `i` writes entry
`i`'s final state, computed from that entry alone. -/
def schedStep (min_size max_size : Nat) (orig : List (Except Unit DirEntry))
    (st : List (Except Unit (DirEntry × Option FileInfo))) (i : Nat) :
    List (Except Unit (DirEntry × Option FileInfo)) :=
  match orig[i]? with
  | some r => st.set i (entryStep min_size max_size r)
  | none => st

/-- The parallel loop run under an arbitrary schedule `sched` (the order
in which the workers finish the indices). -/
def runSched (min_size max_size : Nat) (orig : List (Except Unit DirEntry))
    (sched : List Nat)
    (st : List (Except Unit (DirEntry × Option FileInfo))) :
    List (Except Unit (DirEntry × Option FileInfo)) :=
  sched.foldl (schedStep min_size max_size orig) st

/-- The state of the batch before any worker runs: every `Ok` entry still
has its default `client_state = None`. -/
def initState (orig : List (Except Unit DirEntry)) :
    List (Except Unit (DirEntry × Option FileInfo)) :=
  orig.map (fun r => r.map (fun d => (d, (none : Option FileInfo))))

/-! ## Per-entry characterization of the walker's filter -/

/-- `analyzeEntry` attaches a record exactly for regular files with
readable metadata whose size passes the bounds, and the record is the
size-only key with the entry's path. -/
theorem analyzeEntry_eq_some {min_size max_size : Nat} {e : DirEntry} {fi : FileInfo} :
    analyzeEntry min_size max_size e = some fi ↔
      e.ftype = FileType.file ∧ ∃ s, e.metadata = some s ∧
        min_size ≤ s ∧ s ≤ max_size ∧
        fi = { key := Key.new s none, path := e.path } := by
  rcases e with ⟨ft, meta, p, d⟩
  cases ft <;> cases meta <;> simp only [analyzeEntry, Key.new] <;> simp_all
  constructor
  · rintro ⟨⟨h1, h2⟩, h3⟩
    exact ⟨h1, h2, h3.symm⟩
  · rintro ⟨h1, h2, h3⟩
    exact ⟨⟨h1, h2⟩, h3.symm⟩

/-- C1: for every directory entry observed by the walk, a File Record is
emitted for it if and only if the entry is a regular file (not a
directory, symlink, or special file) whose metadata size `s` satisfies
`min_size <= s <= max_size`; the emitted record's key size equals `s`. -/
theorem record_emitted_iff_regular_in_size_range
    (min_size max_size : Nat) (results : List (Except Unit DirEntry))
    (e : DirEntry) (s : Nat)
    (he : Except.ok e ∈ results) (hmeta : e.metadata = some s) :
    Except.ok (e, analyzeEntry min_size max_size e) ∈
        analyze_dir_entry_results results min_size max_size
    ∧ ((analyzeEntry min_size max_size e).isSome = true ↔
        (e.ftype = FileType.file ∧ min_size ≤ s ∧ s ≤ max_size))
    ∧ (∀ fi, analyzeEntry min_size max_size e = some fi → fi.key.size = s) := by
  refine ⟨?_, ?_, ?_⟩
  · have h := List.mem_map_of_mem (entryStep min_size max_size) he
    simpa [analyze_dir_entry_results, entryStep] using h
  · rw [Option.isSome_iff_exists]
    constructor
    · rintro ⟨fi, hfi⟩
      obtain ⟨hft, s', hs', h1, h2, _⟩ := analyzeEntry_eq_some.mp hfi
      rw [hmeta] at hs'
      obtain rfl : s = s' := Option.some.inj hs'
      exact ⟨hft, h1, h2⟩
    · rintro ⟨hft, h1, h2⟩
      exact ⟨_, analyzeEntry_eq_some.mpr ⟨hft, s, hmeta, h1, h2, rfl⟩⟩
  · intro fi hfi
    obtain ⟨_, s', hs', _, _, rfl⟩ := analyzeEntry_eq_some.mp hfi
    rw [hmeta] at hs'
    obtain rfl : s = s' := Option.some.inj hs'
    rfl

/-- A concrete directory entry: a 5-byte regular file at depth 1. -/
def exEntry : DirEntry :=
  { ftype := FileType.file, metadata := some 5, path := ["r", "a.txt"], depth := 1 }

/-- Witness for C1 at a concrete entry: a 5-byte regular file with
bounds `[1, 10]`. -/
theorem record_emitted_iff_regular_in_size_range_witness :
    Except.ok (exEntry, analyzeEntry 1 10 exEntry) ∈
        analyze_dir_entry_results [Except.ok exEntry] 1 10
    ∧ ((analyzeEntry 1 10 exEntry).isSome = true ↔
        (exEntry.ftype = FileType.file ∧ 1 ≤ 5 ∧ 5 ≤ 10))
    ∧ (∀ fi, analyzeEntry 1 10 exEntry = some fi → fi.key.size = 5) :=
  record_emitted_iff_regular_in_size_range 1 10 [Except.ok exEntry] exEntry 5
    (List.mem_singleton.mpr rfl) rfl

/-- C7: when `min_size` is absent it defaults to `0` and when `max_size`
is absent it defaults to `u64::MAX`, so the effective size filter under
default configuration is the inclusive range `[0, 2^64 - 1]`, which every
representable 64-bit size passes. -/
theorem get_size_range_default_bounds (args : Arguments)
    (hmin : args.min_size = none) (hmax : args.max_size = none) :
    args.get_size_range = (0, u64Max)
    ∧ u64Max = 2 ^ 64 - 1
    ∧ (∀ s : Nat, s < 2 ^ 64 → rangeContains args.get_size_range s = true) := by
  refine ⟨by simp [Arguments.get_size_range, hmin, hmax], rfl, ?_⟩
  intro s hs
  simp only [Arguments.get_size_range, hmin, hmax, Option.getD_none, rangeContains,
    u64Max, Bool.and_eq_true, decide_eq_true_eq]
  omega

/-- A concrete default configuration (all optional bounds absent). -/
def exArgs : Arguments :=
  { min_depth := none, max_depth := none, min_size := none, max_size := none,
    omit_hidden := false, full_path := false, sort := false }

/-- Witness for C7 at the concrete default configuration. -/
theorem get_size_range_default_bounds_witness :
    exArgs.get_size_range = (0, u64Max)
    ∧ u64Max = 2 ^ 64 - 1
    ∧ (∀ s : Nat, s < 2 ^ 64 → rangeContains exArgs.get_size_range s = true) :=
  get_size_range_default_bounds exArgs rfl rfl

/-- Every record returned by `get_all_files` originates from a
successfully read entry of the walk stream whose `analyzeEntry` state is
that record. -/
theorem mem_get_all_files {minD maxD : Option Nat} {oh : Bool}
    {min_size max_size : Nat} {rp : FsPath} {cs : List FSNode}
    {files : List FileInfo} {fi : FileInfo}
    (hok : get_all_files (Except.ok (rp, cs)) minD maxD oh min_size max_size
      = Except.ok files)
    (hfi : fi ∈ files) :
    ∃ e : DirEntry, Except.ok e ∈ walkForest minD maxD oh rp 1 cs
      ∧ analyzeEntry min_size max_size e = some fi := by
  obtain rfl : _ = files := Except.ok.inj hok
  rw [List.mem_filterMap] at hfi
  obtain ⟨r, hr, hstate⟩ := hfi
  rw [analyze_dir_entry_results, List.mem_map] at hr
  obtain ⟨r0, hr0, rfl⟩ := hr
  cases r0 with
  | error e => simp [entryStep] at hstate
  | ok e =>
    simp only [entryStep] at hstate
    exact ⟨e, hr0, hstate⟩

/-- C3: an unreadable entry (an `Err` from the walk, or a regular file
whose metadata read fails) contributes no File Record and does not abort
the walk: `get_all_files` still returns `Ok`, and every record it
returns comes from a successfully read regular-file entry with readable
metadata.  An error is returned only from resolving the root path,
before traversal. -/
theorem get_all_files_skips_unreadable
    (rootRes : Except String (FsPath × List FSNode))
    (minD maxD : Option Nat) (oh : Bool) (min_size max_size : Nat) :
    (∀ msg, rootRes = Except.error msg →
      get_all_files rootRes minD maxD oh min_size max_size = Except.error msg)
    ∧ (∀ rp cs, rootRes = Except.ok (rp, cs) →
        ∃ files, get_all_files rootRes minD maxD oh min_size max_size = Except.ok files
          ∧ ∀ fi ∈ files, ∃ e : DirEntry,
              Except.ok e ∈ walkForest minD maxD oh rp 1 cs
              ∧ e.ftype = FileType.file
              ∧ e.metadata = some fi.key.size
              ∧ analyzeEntry min_size max_size e = some fi) := by
  constructor
  · rintro msg rfl
    rfl
  · rintro rp cs rfl
    refine ⟨_, rfl, ?_⟩
    intro fi hfi
    obtain ⟨e, hr0, hstate⟩ := mem_get_all_files rfl hfi
    obtain ⟨hft, s, hs, _, _, rfl⟩ := analyzeEntry_eq_some.mp hstate
    exact ⟨e, hr0, hft, hs, hstate⟩

/-- A concrete root directory holding a readable 3-byte file, an
unreadable directory entry, and a regular file whose metadata read
fails. -/
def exRoot : FsPath × List FSNode :=
  (["r"], [FSNode.file "a" (some 3), FSNode.unreadable "x", FSNode.file "b" none])

/-- Witness for C3 at the concrete root: the walk completes with `Ok`
and only the readable file yields a record. -/
theorem get_all_files_skips_unreadable_witness :
    ∃ files, get_all_files (Except.ok exRoot) none none false 0 10 = Except.ok files
      ∧ ∀ fi ∈ files, ∃ e : DirEntry,
          Except.ok e ∈ walkForest none none false ["r"] 1 exRoot.2
          ∧ e.ftype = FileType.file
          ∧ e.metadata = some fi.key.size
          ∧ analyzeEntry 0 10 e = some fi :=
  (get_all_files_skips_unreadable (Except.ok exRoot) none none false 0 10).2
    ["r"] exRoot.2 rfl

/-- C8: every Candidate Key created by the Walker carries the file's
size and an absent content hash — no record emitted by `get_all_files`
has a hash attached; the hash is attached at most once, later, by the
Hash Confirmation stage, which sets it to the computed digest and leaves
size and path unchanged. -/
theorem walker_keys_carry_no_hash
    (rootRes : Except String (FsPath × List FSNode)) (minD maxD : Option Nat)
    (oh : Bool) (min_size max_size : Nat) (files : List FileInfo)
    (hashOf : FsPath → Option Nat)
    (hok : get_all_files rootRes minD maxD oh min_size max_size = Except.ok files) :
    (∀ fi ∈ files, fi.key.hash = none)
    ∧ (∀ fi fi', attachHash hashOf fi = some fi' →
        ∃ h, hashOf fi.path = some h
          ∧ fi' = { key := Key.new fi.key.size (some h), path := fi.path }) := by
  constructor
  · intro fi hfi
    cases rootRes with
    | error msg => simp [get_all_files] at hok
    | ok rc =>
      obtain ⟨rp, cs⟩ := rc
      obtain ⟨e, _, hstate⟩ := mem_get_all_files hok hfi
      obtain ⟨_, s, _, _, _, rfl⟩ := analyzeEntry_eq_some.mp hstate
      rfl
  · intro fi fi' hatt
    cases hh : hashOf fi.path with
    | none => simp [attachHash, hh] at hatt
    | some h =>
      refine ⟨h, rfl, ?_⟩
      simp only [attachHash, hh, Option.map_some'] at hatt
      exact (Option.some.inj hatt).symm

/-- Witness for C8 at the concrete root of `exRoot` with a constant hash
oracle. -/
theorem walker_keys_carry_no_hash_witness :
    (∀ fi ∈ (get_all_files (Except.ok exRoot) none none false 0 10).toOption.getD [],
      fi.key.hash = none)
    ∧ (∀ fi fi', attachHash (fun _ => some 7) fi = some fi' →
        ∃ h, (fun (_ : FsPath) => some 7) fi.path = some h
          ∧ fi' = { key := Key.new fi.key.size (some h), path := fi.path }) :=
  walker_keys_carry_no_hash (Except.ok exRoot) none none false 0 10
    ((get_all_files (Except.ok exRoot) none none false 0 10).toOption.getD [])
    (fun _ => some 7) rfl

/-! ## Scheduling independence of the parallel per-entry run (C10) -/

/-- A scheduled step never changes the batch length. -/
theorem schedStep_length (min_size max_size : Nat)
    (orig : List (Except Unit DirEntry))
    (st : List (Except Unit (DirEntry × Option FileInfo))) (i : Nat) :
    (schedStep min_size max_size orig st i).length = st.length := by
  unfold schedStep
  cases orig[i]? <;> simp

/-- After running any schedule, entry `j` holds its per-entry result if
some worker handled `j`, and its previous state otherwise. -/
theorem runSched_getElem (min_size max_size : Nat)
    (orig : List (Except Unit DirEntry)) :
    ∀ (sched : List Nat) (st : List (Except Unit (DirEntry × Option FileInfo))),
      st.length = orig.length →
      ∀ j, (runSched min_size max_size orig sched st)[j]? =
        if j ∈ sched then (orig[j]?).map (entryStep min_size max_size) else st[j]?
  | [], st, hlen, j => by simp [runSched]
  | i :: rest, st, hlen, j => by
    have hstep : runSched min_size max_size orig (i :: rest) st
        = runSched min_size max_size orig rest (schedStep min_size max_size orig st i) := rfl
    rw [hstep, runSched_getElem min_size max_size orig rest _
      ((schedStep_length min_size max_size orig st i).trans hlen) j]
    by_cases hjr : j ∈ rest
    · simp [hjr, List.mem_cons]
    · by_cases hji : j = i
      · subst hji
        simp only [List.mem_cons, true_or, if_true, hjr, if_false]
        unfold schedStep
        cases ho : orig[j]? with
        | none =>
          have hge : orig.length ≤ j := List.getElem?_eq_none_iff.mp ho
          simp [List.getElem?_eq_none (hlen ▸ hge)]
        | some r =>
          have hj : j < orig.length := by
            by_contra hge
            rw [List.getElem?_eq_none (Nat.le_of_not_lt hge)] at ho
            exact Option.noConfusion ho
          rw [List.getElem?_set]
          simp [hlen ▸ hj]
      · simp only [List.mem_cons, hji, hjr, or_self, if_false]
        unfold schedStep
        cases orig[i]? with
        | none => rfl
        | some r => exact List.getElem?_set_ne (fun h => hji h.symm)

/-- C10: the parallel per-entry filtering of `analyze_dir_entry_results`
is equivalent to the sequential map of the per-entry function: each
entry's final `client_state` depends only on that entry's own data and
the size bounds, so any worker schedule that covers every index yields
the same batch as the sequential map. -/
theorem runSched_eq_analyze (min_size max_size : Nat)
    (orig : List (Except Unit DirEntry)) (sched : List Nat)
    (hcov : ∀ j, j < orig.length → j ∈ sched) :
    runSched min_size max_size orig sched (initState orig)
      = analyze_dir_entry_results orig min_size max_size := by
  apply List.ext_getElem?
  intro j
  rw [runSched_getElem min_size max_size orig sched (initState orig)
    (by simp [initState]) j]
  by_cases hj : j ∈ sched
  · simp [hj, analyze_dir_entry_results]
  · have hge : orig.length ≤ j := by
      by_contra hlt
      exact hj (hcov j (Nat.lt_of_not_le hlt))
    simp [hj, analyze_dir_entry_results, initState,
      List.getElem?_eq_none, hge]

/-- Witness for C10: a three-entry batch processed under the reversed
schedule agrees with the sequential map. -/
theorem runSched_eq_analyze_witness :
    runSched 0 10 [Except.ok exEntry, Except.error (), Except.ok exEntry]
        [2, 1, 0] (initState [Except.ok exEntry, Except.error (), Except.ok exEntry])
      = analyze_dir_entry_results [Except.ok exEntry, Except.error (), Except.ok exEntry] 0 10 :=
  runSched_eq_analyze 0 10 [Except.ok exEntry, Except.error (), Except.ok exEntry]
    [2, 1, 0] (by decide)

/-! ## Walk correctness: the walker agrees with the declarative filter -/

/-- The state extracted from one element of the processed walk stream:
what `flatten().filter_map(client_state)` keeps of it. -/
def extractState (min_size max_size : Nat) : Except Unit DirEntry → Option FileInfo
  | .ok e => analyzeEntry min_size max_size e
  | .error _ => none

/-- `get_all_files` on a resolved root is the walk stream filtered
through `extractState`. -/
theorem get_all_files_ok (minD maxD : Option Nat) (oh : Bool)
    (min_size max_size : Nat) (rp : FsPath) (cs : List FSNode) :
    get_all_files (Except.ok (rp, cs)) minD maxD oh min_size max_size
      = Except.ok ((walkForest minD maxD oh rp 1 cs).filterMap
          (extractState min_size max_size)) := by
  simp only [get_all_files, analyze_dir_entry_results, List.filterMap_map]
  congr 1
  apply List.filterMap_congr
  intro r _
  cases r <;> rfl

/-- Every file listed for a forest at depth `d` lies at depth `d` or
deeper. -/
theorem treeFilesForest_depth_ge :
    ∀ (p : FsPath) (d : Nat) (cs : List FSNode),
      ∀ tf ∈ treeFilesForest p d cs, d ≤ tf.depth
  | _, _, [] => by
    intro tf htf
    simp [treeFilesForest] at htf
  | p, d, c :: rest => by
    intro tf htf
    cases c with
    | file n m =>
      simp only [treeFilesForest, List.cons_append, List.nil_append,
        List.mem_cons] at htf
      rcases htf with h | h
      · subst h
        exact Nat.le_refl d
      · exact treeFilesForest_depth_ge p d rest tf h
    | dir n cs' =>
      simp only [treeFilesForest, List.mem_append, List.mem_map] at htf
      rcases htf with ⟨tf0, h0, rfl⟩ | h
      · have hsub := treeFilesForest_depth_ge (p ++ [n]) (d + 1) cs' tf0 h0
        exact Nat.le_of_succ_le hsub
      · exact treeFilesForest_depth_ge p d rest tf h
    | symlink n =>
      simp only [treeFilesForest, List.nil_append] at htf
      exact treeFilesForest_depth_ge p d rest tf htf
    | special n =>
      simp only [treeFilesForest, List.nil_append] at htf
      exact treeFilesForest_depth_ge p d rest tf htf
    | unreadable n =>
      simp only [treeFilesForest, List.nil_append] at htf
      exact treeFilesForest_depth_ge p d rest tf htf

/-- A failed `max_depth` test stays failed at greater depths. -/
theorem depthLe_false_mono {maxD : Option Nat} {d1 d2 : Nat}
    (h : depthLe maxD d1 = false) (hle : d1 ≤ d2) : depthLe maxD d2 = false := by
  cases maxD with
  | none => simp [depthLe] at h
  | some m =>
    simp only [depthLe, decide_eq_false_iff_not, Nat.not_le] at h ⊢
    omega

/-- Extending a file's name chain with a visible component does not
change whether the declarative filter keeps it. -/
theorem declFilter_cons_chain (minD maxD : Option Nat) (oh : Bool)
    (min_size max_size : Nat) (n : String) (tf : TreeFile)
    (hvis : oh = false ∨ isHidden n = false) :
    declFilter minD maxD oh min_size max_size { tf with chain := n :: tf.chain }
      = declFilter minD maxD oh min_size max_size tf := by
  rcases hvis with h | h <;>
    cases hm : tf.meta <;>
      simp [declFilter, h, hm]

/-- The declarative filter rejects a file whose chain starts hidden when
`omit_hidden` is on. -/
theorem declFilter_hidden_head (minD maxD : Option Nat)
    (min_size max_size : Nat) (n : String) (tf : TreeFile)
    (hn : isHidden n = true) :
    declFilter minD maxD true min_size max_size { tf with chain := n :: tf.chain }
      = none := by
  cases hm : tf.meta <;> simp [declFilter, hn, hm]

/-- The declarative filter rejects a file whose depth fails the
`max_depth` bound. -/
theorem declFilter_depth_fail (minD maxD : Option Nat) (oh : Bool)
    (min_size max_size : Nat) (tf : TreeFile)
    (hd : depthLe maxD tf.depth = false) :
    declFilter minD maxD oh min_size max_size tf = none := by
  cases hm : tf.meta <;>
    simp [declFilter, inDepthRange, hd, hm]

/-- Prepending a visible component to every chain leaves the filtered
records unchanged. -/
theorem filterMap_decl_map_chain (minD maxD : Option Nat) (oh : Bool)
    (min_size max_size : Nat) (n : String) (l : List TreeFile)
    (hvis : oh = false ∨ isHidden n = false) :
    (l.map (fun tf => { tf with chain := n :: tf.chain })).filterMap
        (declFilter minD maxD oh min_size max_size)
      = l.filterMap (declFilter minD maxD oh min_size max_size) := by
  induction l with
  | nil => rfl
  | cons a l ih =>
    simp only [List.map_cons, List.filterMap_cons,
      declFilter_cons_chain minD maxD oh min_size max_size n a hvis, ih]

/-- With `omit_hidden` on, a hidden leading component excludes every
record below it. -/
theorem filterMap_decl_map_chain_hidden (minD maxD : Option Nat)
    (min_size max_size : Nat) (n : String) (l : List TreeFile)
    (hn : isHidden n = true) :
    (l.map (fun tf => { tf with chain := n :: tf.chain })).filterMap
        (declFilter minD maxD true min_size max_size) = [] := by
  induction l with
  | nil => rfl
  | cons a l ih =>
    simp only [List.map_cons, List.filterMap_cons,
      declFilter_hidden_head minD maxD min_size max_size n a hn, ih]

/-- The records the walk keeps are exactly the records of the
declarative filter over the tree's regular files. -/
theorem walk_eq_declFilter (minD maxD : Option Nat) (oh : Bool)
    (min_size max_size : Nat) :
    ∀ (p : FsPath) (d : Nat) (cs : List FSNode),
      (walkForest minD maxD oh p d cs).filterMap (extractState min_size max_size)
        = (treeFilesForest p d cs).filterMap (declFilter minD maxD oh min_size max_size)
  | _, _, [] => by simp [walkForest, treeFilesForest]
  | p, d, c :: rest => by
    have ihrest := walk_eq_declFilter minD maxD oh min_size max_size p d rest
    cases c with
    | file n m =>
      simp only [walkForest, treeFilesForest, FSNode.name, List.filterMap_append]
      rw [ihrest]
      congr 1
      rcases Bool.eq_false_or_eq_true oh with hoh | hoh <;>
        rcases Bool.eq_false_or_eq_true (isHidden n) with hhid | hhid <;>
          rcases Bool.eq_false_or_eq_true (inDepthRange minD maxD d) with hd | hd <;>
            cases m <;>
              simp [hoh, hhid, hd, extractState, analyzeEntry, declFilter,
                mkDirEntry, Key.new, List.filterMap_cons, and_assoc]
    | dir n cs' =>
      simp only [walkForest, treeFilesForest, FSNode.name, List.filterMap_append]
      rw [ihrest]
      congr 1
      by_cases hvis : (oh && isHidden n) = true
      · rw [if_pos hvis]
        have hoh : oh = true := (Bool.and_eq_true _ _ ▸ hvis).1
        have hhid : isHidden n = true := (Bool.and_eq_true _ _ ▸ hvis).2
        subst hoh
        rw [filterMap_decl_map_chain_hidden minD maxD min_size max_size n _ hhid]
        rfl
      · rw [if_neg hvis]
        have hvis' : oh = false ∨ isHidden n = false := by
          cases hoh : oh with
          | false => exact Or.inl rfl
          | true =>
            refine Or.inr ?_
            cases hhid : isHidden n with
            | false => rfl
            | true => exact absurd (by rw [hoh, hhid]; rfl) hvis
        rw [filterMap_decl_map_chain minD maxD oh min_size max_size n _ hvis']
        by_cases hdesc : depthLe maxD (d + 1) = true
        · have ihsub := walk_eq_declFilter minD maxD oh min_size max_size (p ++ [n]) (d + 1) cs'
          rw [if_pos hdesc, List.filterMap_append, ihsub]
          rcases Bool.eq_false_or_eq_true (inDepthRange minD maxD d) with hd | hd <;>
            simp [hd, extractState, analyzeEntry, mkDirEntry]
        · rw [if_neg hdesc, List.filterMap_append]
          have hnil : (treeFilesForest (p ++ [n]) (d + 1) cs').filterMap
              (declFilter minD maxD oh min_size max_size) = [] := by
            rw [List.filterMap_eq_nil_iff]
            intro tf htf
            refine declFilter_depth_fail minD maxD oh min_size max_size tf ?_
            refine depthLe_false_mono ?_ (treeFilesForest_depth_ge (p ++ [n]) (d + 1) cs' tf htf)
            exact Bool.eq_false_iff.mpr hdesc
          rw [hnil]
          rcases Bool.eq_false_or_eq_true (inDepthRange minD maxD d) with hd | hd <;>
            simp [hd, extractState, analyzeEntry, mkDirEntry]
    | symlink n =>
      simp only [walkForest, treeFilesForest, FSNode.name, List.filterMap_append,
        List.nil_append]
      rw [ihrest]
      rcases Bool.eq_false_or_eq_true (oh && isHidden n) with hvis | hvis <;>
        rcases Bool.eq_false_or_eq_true (inDepthRange minD maxD d) with hd | hd <;>
          simp [hvis, hd, extractState, analyzeEntry, mkDirEntry]
    | special n =>
      simp only [walkForest, treeFilesForest, FSNode.name, List.filterMap_append,
        List.nil_append]
      rw [ihrest]
      rcases Bool.eq_false_or_eq_true (oh && isHidden n) with hvis | hvis <;>
        rcases Bool.eq_false_or_eq_true (inDepthRange minD maxD d) with hd | hd <;>
          simp [hvis, hd, extractState, analyzeEntry, mkDirEntry]
    | unreadable n =>
      simp only [walkForest, treeFilesForest, FSNode.name, List.filterMap_append,
        List.nil_append]
      rw [ihrest]
      rcases Bool.eq_false_or_eq_true (oh && isHidden n) with hvis | hvis <;>
        rcases Bool.eq_false_or_eq_true (inDepthRange minD maxD d) with hd | hd <;>
          simp [hvis, hd, extractState, mkDirEntry]

/-- `get_all_files` on a resolved root produces exactly the declarative
filter of the tree's regular files. -/
theorem get_all_files_eq_declarative (minD maxD : Option Nat) (oh : Bool)
    (min_size max_size : Nat) (rp : FsPath) (cs : List FSNode) :
    get_all_files (Except.ok (rp, cs)) minD maxD oh min_size max_size
      = Except.ok ((treeFilesForest rp 1 cs).filterMap
          (declFilter minD maxD oh min_size max_size)) := by
  rw [get_all_files_ok, walk_eq_declFilter]

/-- What it takes for the declarative filter to keep a file. -/
theorem declFilter_eq_some {minD maxD : Option Nat} {oh : Bool}
    {min_size max_size : Nat} {tf : TreeFile} {fi : FileInfo} :
    declFilter minD maxD oh min_size max_size tf = some fi ↔
      ∃ s, tf.meta = some s
        ∧ (oh = false ∨ tf.chain.all (fun c => !isHidden c) = true)
        ∧ inDepthRange minD maxD tf.depth = true
        ∧ min_size ≤ s ∧ s ≤ max_size
        ∧ fi = { key := Key.new s none, path := tf.path } := by
  obtain ⟨tp, td, tm, tc⟩ := tf
  cases tm with
  | none => simp [declFilter]
  | some s =>
    simp only [declFilter, Option.some_inj]
    split
    · next hcond =>
      simp only [Bool.and_eq_true, Bool.or_eq_true, Bool.not_eq_true',
        decide_eq_true_eq] at hcond
      obtain ⟨⟨h1, h2⟩, h3, h4⟩ := hcond
      simp only [Option.some_inj]
      constructor
      · rintro rfl
        exact ⟨s, rfl, h1, h2, h3, h4, rfl⟩
      · rintro ⟨s', rfl, _, _, _, _, rfl⟩
        rfl
    · next hcond =>
      constructor
      · intro h
        exact absurd h (by simp)
      · rintro ⟨s', rfl, h1, h2, h3, h4, rfl⟩
        refine absurd ?_ hcond
        rcases h1 with h1 | h1
        · subst h1
          simp [h2, h3, h4]
        · simp [h1, h2, h3, h4]

/-- C5: a file under the root can be emitted only when its depth `d`
(root = depth 0) satisfies `min_depth <= d <= max_depth`, and it is
emitted whenever additionally the remaining filters pass; an absent
bound passes unconditionally. -/
theorem depth_filter_correct (minD maxD : Option Nat) (oh : Bool)
    (min_size max_size : Nat) (rp : FsPath) (cs : List FSNode)
    (files : List FileInfo)
    (hok : get_all_files (Except.ok (rp, cs)) minD maxD oh min_size max_size
      = Except.ok files) :
    (∀ d, inDepthRange none none d = true)
    ∧ (∀ fi ∈ files, ∃ tf ∈ treeFilesForest rp 1 cs,
        tf.path = fi.path ∧ tf.meta = some fi.key.size
        ∧ inDepthRange minD maxD tf.depth = true)
    ∧ (∀ tf ∈ treeFilesForest rp 1 cs, ∀ s, tf.meta = some s →
        min_size ≤ s → s ≤ max_size →
        (oh = false ∨ tf.chain.all (fun c => !isHidden c) = true) →
        inDepthRange minD maxD tf.depth = true →
        ({ key := Key.new s none, path := tf.path } : FileInfo) ∈ files) := by
  rw [get_all_files_eq_declarative] at hok
  obtain rfl : _ = files := Except.ok.inj hok
  refine ⟨fun d => rfl, ?_, ?_⟩
  · intro fi hfi
    rw [List.mem_filterMap] at hfi
    obtain ⟨tf, htf, hdecl⟩ := hfi
    obtain ⟨s, hs, _, hdep, _, _, rfl⟩ := declFilter_eq_some.mp hdecl
    exact ⟨tf, htf, rfl, hs, hdep⟩
  · intro tf htf s hs h1 h2 hhid hdep
    rw [List.mem_filterMap]
    exact ⟨tf, htf, declFilter_eq_some.mpr ⟨s, hs, hhid, hdep, h1, h2, rfl⟩⟩

/-- C6: when `omit_hidden` is true, any file lying under a hidden-named
path component (including a hidden name of its own) is excluded — every
emitted record's name chain is entirely visible; when `omit_hidden` is
false, hidden paths are traversed like any other: every file passing the
depth and size filters is emitted regardless of hidden components. -/
theorem hidden_filter_correct (minD maxD : Option Nat)
    (min_size max_size : Nat) (rp : FsPath) (cs : List FSNode)
    (ft ff : List FileInfo)
    (hokt : get_all_files (Except.ok (rp, cs)) minD maxD true min_size max_size
      = Except.ok ft)
    (hokf : get_all_files (Except.ok (rp, cs)) minD maxD false min_size max_size
      = Except.ok ff) :
    (∀ fi ∈ ft, ∃ tf ∈ treeFilesForest rp 1 cs,
        tf.path = fi.path ∧ tf.chain.all (fun c => !isHidden c) = true)
    ∧ (∀ tf ∈ treeFilesForest rp 1 cs, ∀ s, tf.meta = some s →
        min_size ≤ s → s ≤ max_size → inDepthRange minD maxD tf.depth = true →
        ({ key := Key.new s none, path := tf.path } : FileInfo) ∈ ff) := by
  rw [get_all_files_eq_declarative] at hokt hokf
  obtain rfl : _ = ft := Except.ok.inj hokt
  obtain rfl : _ = ff := Except.ok.inj hokf
  constructor
  · intro fi hfi
    rw [List.mem_filterMap] at hfi
    obtain ⟨tf, htf, hdecl⟩ := hfi
    obtain ⟨s, _, hvis, _, _, _, rfl⟩ := declFilter_eq_some.mp hdecl
    rcases hvis with h | h
    · exact absurd h (by simp)
    · exact ⟨tf, htf, rfl, h⟩
  · intro tf htf s hs h1 h2 hdep
    rw [List.mem_filterMap]
    exact ⟨tf, htf, declFilter_eq_some.mpr ⟨s, hs, Or.inl rfl, hdep, h1, h2, rfl⟩⟩

/-- A concrete tree: a file at depth 1, a file at depth 2 inside a
subdirectory, and a hidden file at depth 1. -/
def exTree : List FSNode :=
  [FSNode.file "a" (some 3),
   FSNode.dir "d" [FSNode.file "b" (some 3)],
   FSNode.file ".h" (some 3)]

/-- The records of `exTree` under depth bounds `[1, 1]`. -/
def exFilesDepth : List FileInfo :=
  (treeFilesForest ["r"] 1 exTree).filterMap
    (declFilter (some 1) (some 1) false 0 100)

/-- Witness for C5 at `exTree` with depth bounds `[1, 1]`. -/
theorem depth_filter_correct_witness :
    (∀ d, inDepthRange none none d = true)
    ∧ (∀ fi ∈ exFilesDepth, ∃ tf ∈ treeFilesForest ["r"] 1 exTree,
        tf.path = fi.path ∧ tf.meta = some fi.key.size
        ∧ inDepthRange (some 1) (some 1) tf.depth = true)
    ∧ (∀ tf ∈ treeFilesForest ["r"] 1 exTree, ∀ s, tf.meta = some s →
        0 ≤ s → s ≤ 100 →
        (false = false ∨ tf.chain.all (fun c => !isHidden c) = true) →
        inDepthRange (some 1) (some 1) tf.depth = true →
        ({ key := Key.new s none, path := tf.path } : FileInfo) ∈ exFilesDepth) :=
  depth_filter_correct (some 1) (some 1) false 0 100 ["r"] exTree exFilesDepth
    (get_all_files_eq_declarative (some 1) (some 1) false 0 100 ["r"] exTree)

/-- The records of `exTree` with `omit_hidden` on. -/
def exFilesHiddenT : List FileInfo :=
  (treeFilesForest ["r"] 1 exTree).filterMap (declFilter none none true 0 100)

/-- The records of `exTree` with `omit_hidden` off. -/
def exFilesHiddenF : List FileInfo :=
  (treeFilesForest ["r"] 1 exTree).filterMap (declFilter none none false 0 100)

/-- Witness for C6 at `exTree`. -/
theorem hidden_filter_correct_witness :
    (∀ fi ∈ exFilesHiddenT, ∃ tf ∈ treeFilesForest ["r"] 1 exTree,
        tf.path = fi.path ∧ tf.chain.all (fun c => !isHidden c) = true)
    ∧ (∀ tf ∈ treeFilesForest ["r"] 1 exTree, ∀ s, tf.meta = some s →
        0 ≤ s → s ≤ 100 → inDepthRange none none tf.depth = true →
        ({ key := Key.new s none, path := tf.path } : FileInfo) ∈ exFilesHiddenF) :=
  hidden_filter_correct none none 0 100 ["r"] exTree exFilesHiddenT exFilesHiddenF
    (get_all_files_eq_declarative none none true 0 100 ["r"] exTree)
    (get_all_files_eq_declarative none none false 0 100 ["r"] exTree)

/-! ## Invariants of the spec-modelled downstream pipeline -/

/-- Membership in a size bucket. -/
theorem mem_sizeBucket {files : List FileInfo} {s : Nat} {fi : FileInfo} :
    fi ∈ sizeBucket files s ↔ fi ∈ files ∧ fi.key.size = s := by
  simp [sizeBucket]

/-- What a successful hash attachment produces. -/
theorem attachHash_eq_some {hashOf : FsPath → Option Nat} {fi fi' : FileInfo} :
    attachHash hashOf fi = some fi' ↔
      ∃ h, hashOf fi.path = some h
        ∧ fi' = { key := Key.new fi.key.size (some h), path := fi.path } := by
  cases hh : hashOf fi.path <;> simp [attachHash, hh, eq_comm]

/-- Membership in the grouper's output. -/
theorem mem_groupBySize {files : List FileInfo} {s : Nat} {b : List FileInfo} :
    (s, b) ∈ groupBySize files ↔
      s ∈ distinctSizes files ∧ b = sizeBucket files s
        ∧ 2 ≤ (sizeBucket files s).length := by
  simp only [groupBySize, List.mem_filterMap]
  constructor
  · rintro ⟨s0, hs0, heq⟩
    split at heq
    · obtain ⟨rfl, rfl⟩ := Prod.mk.injEq .. ▸ Option.some.inj heq
      exact ⟨hs0, rfl, by assumption⟩
    · exact absurd heq (by simp)
  · rintro ⟨hs, rfl, hlen⟩
    exact ⟨s, hs, by simp [hlen]⟩

/-- Membership in the confirmation stage's output for one bucket. -/
theorem mem_confirmBucket {hashOf : FsPath → Option Nat} {s : Nat}
    {b : List FileInfo} {g : DuplicateGroup} :
    g ∈ confirmBucket hashOf s b ↔
      ∃ h, h ∈ ((b.filterMap (attachHash hashOf)).filterMap
            (fun fi => fi.key.hash)).dedup
        ∧ 2 ≤ ((b.filterMap (attachHash hashOf)).filter
            (fun fi => fi.key.hash == some h)).length
        ∧ g = { representative_size := s,
                members := ((b.filterMap (attachHash hashOf)).filter
                  (fun fi => fi.key.hash == some h)).map (fun fi => fi.path) } := by
  simp only [confirmBucket, List.mem_filterMap]
  constructor
  · rintro ⟨h, hh, heq⟩
    split at heq
    · exact ⟨h, hh, by assumption, (Option.some.inj heq).symm⟩
    · exact absurd heq (by simp)
  · rintro ⟨h, hh, hlen, rfl⟩
    exact ⟨h, hh, by simp [hlen]⟩

/-- C4: every Duplicate Group produced by the pipeline has at least 2
members, and all members share identical size equal to the group's
`representative_size` and identical content hash under the configured
algorithm. -/
theorem duplicate_group_invariants (hashOf : FsPath → Option Nat)
    (files : List FileInfo) (g : DuplicateGroup)
    (hg : g ∈ find_duplicate_files hashOf files) :
    2 ≤ g.members.length
    ∧ (∀ p ∈ g.members, ∃ fi ∈ files,
        fi.path = p ∧ fi.key.size = g.representative_size)
    ∧ (∃ h, ∀ p ∈ g.members, hashOf p = some h) := by
  rw [find_duplicate_files, List.mem_flatMap] at hg
  obtain ⟨⟨s, b⟩, hsb, hgc⟩ := hg
  obtain ⟨_, rfl, hblen⟩ := mem_groupBySize.mp hsb
  obtain ⟨h, _, hsub, rfl⟩ := mem_confirmBucket.mp hgc
  refine ⟨by simpa using hsub, ?_, ?_⟩
  · intro p hp
    simp only [List.mem_map, List.mem_filter] at hp
    obtain ⟨fi', ⟨hmem, _⟩, rfl⟩ := hp
    rw [List.mem_filterMap] at hmem
    obtain ⟨fi0, hfi0, hatt⟩ := hmem
    obtain ⟨h0, _, rfl⟩ := attachHash_eq_some.mp hatt
    obtain ⟨hfiles, hsize⟩ := mem_sizeBucket.mp hfi0
    exact ⟨fi0, hfiles, rfl, hsize⟩
  · refine ⟨h, ?_⟩
    intro p hp
    simp only [List.mem_map, List.mem_filter] at hp
    obtain ⟨fi', ⟨hmem, hfil⟩, rfl⟩ := hp
    rw [List.mem_filterMap] at hmem
    obtain ⟨fi0, hfi0, hatt⟩ := hmem
    obtain ⟨h0, hho, rfl⟩ := attachHash_eq_some.mp hatt
    have : some h0 = some h := by simpa [Key.new] using hfil
    obtain rfl : h0 = h := Option.some.inj this
    exact hho

/-- Two records of the same 4-byte size with distinct paths. -/
def exDupFiles : List FileInfo :=
  [{ key := Key.new 4 none, path := ["a"] },
   { key := Key.new 4 none, path := ["b"] }]

/-- The group the pipeline confirms for `exDupFiles` under a constant
hash oracle. -/
def exGroup : DuplicateGroup :=
  { representative_size := 4, members := [["a"], ["b"]] }

/-- Witness for C4: the concrete pipeline run on `exDupFiles` yields
`exGroup`, and the invariants hold of it. -/
theorem duplicate_group_invariants_witness :
    2 ≤ exGroup.members.length
    ∧ (∀ p ∈ exGroup.members, ∃ fi ∈ exDupFiles,
        fi.path = p ∧ fi.key.size = exGroup.representative_size)
    ∧ (∃ h, ∀ p ∈ exGroup.members, (fun (_ : FsPath) => some 9) p = some h) :=
  duplicate_group_invariants (fun _ => some 9) exDupFiles exGroup
    (List.mem_singleton.mpr rfl)

/-- A list holding two distinct elements has at least two elements. -/
theorem two_le_length_of_mem_ne {α : Type} {l : List α} {a b : α}
    (ha : a ∈ l) (hb : b ∈ l) (hab : a ≠ b) : 2 ≤ l.length := by
  cases l with
  | nil => simp at ha
  | cons x t =>
    cases t with
    | nil =>
      simp only [List.mem_singleton] at ha hb
      exact absurd (ha.trans hb.symm) hab
    | cons y u =>
      simp only [List.length_cons]
      omega

/-- C2: two files with identical content (hence the same digest under
the configured algorithm) and identical size, both present in the
walker's output, are placed in the same Duplicate Group —
size-bucketing introduces no false negatives. -/
theorem same_content_same_group (hashOf : FsPath → Option Nat)
    (files : List FileInfo) (fi1 fi2 : FileInfo) (h : Nat)
    (h1 : fi1 ∈ files) (h2 : fi2 ∈ files)
    (hne : fi1.path ≠ fi2.path)
    (hsz : fi1.key.size = fi2.key.size)
    (hh1 : hashOf fi1.path = some h) (hh2 : hashOf fi2.path = some h) :
    ∃ g ∈ find_duplicate_files hashOf files,
      fi1.path ∈ g.members ∧ fi2.path ∈ g.members := by
  have hb1 : fi1 ∈ sizeBucket files fi1.key.size := mem_sizeBucket.mpr ⟨h1, rfl⟩
  have hb2 : fi2 ∈ sizeBucket files fi1.key.size := mem_sizeBucket.mpr ⟨h2, hsz.symm⟩
  have hne12 : fi1 ≠ fi2 := fun he => hne (he ▸ rfl)
  have hblen : 2 ≤ (sizeBucket files fi1.key.size).length :=
    two_le_length_of_mem_ne hb1 hb2 hne12
  have hsmem : fi1.key.size ∈ distinctSizes files := by
    rw [distinctSizes, List.mem_dedup, List.mem_map]
    exact ⟨fi1, h1, rfl⟩
  have hgb : (fi1.key.size, sizeBucket files fi1.key.size) ∈ groupBySize files :=
    mem_groupBySize.mpr ⟨hsmem, rfl, hblen⟩
  have hm1 : ({ key := Key.new fi1.key.size (some h), path := fi1.path } : FileInfo)
      ∈ (sizeBucket files fi1.key.size).filterMap (attachHash hashOf) := by
    rw [List.mem_filterMap]
    exact ⟨fi1, hb1, attachHash_eq_some.mpr ⟨h, hh1, rfl⟩⟩
  have hm2 : ({ key := Key.new fi1.key.size (some h), path := fi2.path } : FileInfo)
      ∈ (sizeBucket files fi1.key.size).filterMap (attachHash hashOf) := by
    rw [List.mem_filterMap]
    refine ⟨fi2, hb2, attachHash_eq_some.mpr ⟨h, hh2, ?_⟩⟩
    rw [hsz]
  have hs1 : ({ key := Key.new fi1.key.size (some h), path := fi1.path } : FileInfo)
      ∈ ((sizeBucket files fi1.key.size).filterMap (attachHash hashOf)).filter
          (fun fi => fi.key.hash == some h) :=
    List.mem_filter.mpr ⟨hm1, by simp [Key.new]⟩
  have hs2 : ({ key := Key.new fi1.key.size (some h), path := fi2.path } : FileInfo)
      ∈ ((sizeBucket files fi1.key.size).filterMap (attachHash hashOf)).filter
          (fun fi => fi.key.hash == some h) :=
    List.mem_filter.mpr ⟨hm2, by simp [Key.new]⟩
  have hsublen : 2 ≤ (((sizeBucket files fi1.key.size).filterMap
      (attachHash hashOf)).filter (fun fi => fi.key.hash == some h)).length :=
    two_le_length_of_mem_ne hs1 hs2 (by
      intro he
      apply hne
      have hpq := congrArg FileInfo.path he
      exact hpq)
  have hhmem : h ∈ (((sizeBucket files fi1.key.size).filterMap
      (attachHash hashOf)).filterMap (fun fi => fi.key.hash)).dedup := by
    rw [List.mem_dedup, List.mem_filterMap]
    exact ⟨_, hm1, rfl⟩
  refine ⟨{ representative_size := fi1.key.size,
            members := (((sizeBucket files fi1.key.size).filterMap
              (attachHash hashOf)).filter
                (fun fi => fi.key.hash == some h)).map (fun fi => fi.path) },
          ?_, ?_, ?_⟩
  · rw [find_duplicate_files, List.mem_flatMap]
    exact ⟨(fi1.key.size, sizeBucket files fi1.key.size), hgb,
      mem_confirmBucket.mpr ⟨h, hhmem, hsublen, rfl⟩⟩
  · exact List.mem_map.mpr ⟨_, hs1, rfl⟩
  · exact List.mem_map.mpr ⟨_, hs2, rfl⟩

/-- Witness for C2: the two records of `exDupFiles` under a constant
hash oracle land in one group. -/
theorem same_content_same_group_witness :
    ∃ g ∈ find_duplicate_files (fun _ => some 9) exDupFiles,
      ({ key := Key.new 4 none, path := ["a"] } : FileInfo).path ∈ g.members
      ∧ ({ key := Key.new 4 none, path := ["b"] } : FileInfo).path ∈ g.members :=
  same_content_same_group (fun _ => some 9) exDupFiles
    { key := Key.new 4 none, path := ["a"] }
    { key := Key.new 4 none, path := ["b"] } 9
    (by simp [exDupFiles]) (by simp [exDupFiles])
    (by simp) rfl rfl rfl

/-! ## Run-to-run determinism of the pipeline (C9) -/

/-- Confirming permuted buckets yields the same groups up to order and
member order. -/
theorem confirmBucket_canon_perm (hashOf : FsPath → Option Nat) (s : Nat)
    {b b' : List FileInfo} (hp : b.Perm b') :
    ((confirmBucket hashOf s b).map canonGroup).Perm
      ((confirmBucket hashOf s b').map canonGroup) := by
  have hh : (b.filterMap (attachHash hashOf)).Perm
      (b'.filterMap (attachHash hashOf)) := hp.filterMap _
  have hhs : ((b.filterMap (attachHash hashOf)).filterMap
        (fun fi => fi.key.hash)).dedup.Perm
      ((b'.filterMap (attachHash hashOf)).filterMap
        (fun fi => fi.key.hash)).dedup :=
    (hh.filterMap _).dedup
  simp only [confirmBucket, List.map_filterMap]
  have hpoint : ∀ h : Nat,
      ((if 2 ≤ ((b.filterMap (attachHash hashOf)).filter
            (fun fi => fi.key.hash == some h)).length then
          some { representative_size := s,
                 members := ((b.filterMap (attachHash hashOf)).filter
                   (fun fi => fi.key.hash == some h)).map (fun fi => fi.path) }
        else (none : Option DuplicateGroup)).map canonGroup)
      = ((if 2 ≤ ((b'.filterMap (attachHash hashOf)).filter
            (fun fi => fi.key.hash == some h)).length then
          some { representative_size := s,
                 members := ((b'.filterMap (attachHash hashOf)).filter
                   (fun fi => fi.key.hash == some h)).map (fun fi => fi.path) }
        else (none : Option DuplicateGroup)).map canonGroup) := by
    intro h
    have hsubp := hh.filter (fun fi => fi.key.hash == some h)
    rw [hsubp.length_eq]
    by_cases hl : 2 ≤ ((b'.filterMap (attachHash hashOf)).filter
        (fun fi => fi.key.hash == some h)).length
    · rw [if_pos hl, if_pos hl]
      simp only [Option.map_some']
      refine congrArg some ?_
      unfold canonGroup
      refine congrArg (Prod.mk s) ?_
      exact Multiset.coe_eq_coe.mpr (hsubp.map _)
    · rw [if_neg hl, if_neg hl]
  refine List.Perm.trans (hhs.filterMap _) ?_
  rw [List.filterMap_congr (fun h _ => hpoint h)]

/-- Pushing `flatMap` through `filterMap`. -/
theorem flatMap_filterMap {α β γ : Type} (l : List α) (f : α → Option β)
    (g : β → List γ) :
    (l.filterMap f).flatMap g
      = l.flatMap (fun a => match f a with | some b => g b | none => []) := by
  induction l with
  | nil => rfl
  | cons a t ih => cases hf : f a <;> simp [List.filterMap_cons, hf, ih]

/-- The pipeline's groups, compared as unordered collections of
unordered path sets, do not depend on the order the walker delivered the
records in. -/
theorem find_canon_perm (hashOf : FsPath → Option Nat)
    {files files' : List FileInfo} (hp : files.Perm files') :
    ((find_duplicate_files hashOf files).map canonGroup).Perm
      ((find_duplicate_files hashOf files').map canonGroup) := by
  have hS : (distinctSizes files).Perm (distinctSizes files') := (hp.map _).dedup
  have hrw : ∀ fs : List FileInfo,
      (find_duplicate_files hashOf fs).map canonGroup
        = (distinctSizes fs).flatMap (fun s =>
            if 2 ≤ (sizeBucket fs s).length then
              (confirmBucket hashOf s (sizeBucket fs s)).map canonGroup
            else []) := by
    intro fs
    simp only [find_duplicate_files, List.map_flatMap, groupBySize, flatMap_filterMap]
    refine congrArg (List.flatMap (distinctSizes fs)) (funext fun s => ?_)
    by_cases hl : 2 ≤ (sizeBucket fs s).length
    · rw [if_pos hl, if_pos hl]
    · rw [if_neg hl, if_neg hl]
      rfl
  rw [hrw files, hrw files']
  refine (hS.flatMap_right _).trans ?_
  apply List.Perm.flatMap_left
  intro s _
  have hbp : (sizeBucket files s).Perm (sizeBucket files' s) := hp.filter _
  have hlen : (sizeBucket files s).length = (sizeBucket files' s).length :=
    hbp.length_eq
  by_cases hl : 2 ≤ (sizeBucket files' s).length
  · rw [hlen, if_pos hl, if_pos hl]
    exact confirmBucket_canon_perm hashOf s hbp
  · rw [hlen, if_neg hl, if_neg hl]

/-- C9: running the pipeline twice over the same unmodified tree with
the same configuration yields the same collection of Duplicate Groups
compared as unordered sets of path sets; only the internal ordering of
members and groups may differ between the two runs (each run observes
the walker's records in some unspecified order). -/
theorem pipeline_idempotent (hashOf : FsPath → Option Nat)
    (rootRes : Except String (FsPath × List FSNode)) (minD maxD : Option Nat)
    (oh : Bool) (min_size max_size : Nat) (run1 run2 : List FileInfo)
    (h1 : ∃ files, get_all_files rootRes minD maxD oh min_size max_size
      = Except.ok files ∧ run1.Perm files)
    (h2 : ∃ files, get_all_files rootRes minD maxD oh min_size max_size
      = Except.ok files ∧ run2.Perm files) :
    canonGroups (find_duplicate_files hashOf run1)
      = canonGroups (find_duplicate_files hashOf run2) := by
  obtain ⟨fa, hoka, hpa⟩ := h1
  obtain ⟨fb, hokb, hpb⟩ := h2
  obtain rfl : fa = fb := Except.ok.inj (hoka.symm.trans hokb)
  have hp : run1.Perm run2 := hpa.trans hpb.symm
  exact Multiset.coe_eq_coe.mpr (find_canon_perm hashOf hp)

/-- The walker output of `exRoot` under default-like configuration. -/
def exRun : List FileInfo :=
  (treeFilesForest ["r"] 1 exRoot.2).filterMap (declFilter none none false 0 10)

/-- Witness for C9: two identically configured runs over `exRoot` agree
on the canonical group collection. -/
theorem pipeline_idempotent_witness :
    canonGroups (find_duplicate_files (fun _ => some 9) exRun)
      = canonGroups (find_duplicate_files (fun _ => some 9) exRun) :=
  pipeline_idempotent (fun _ => some 9) (Except.ok exRoot) none none false 0 10
    exRun exRun
    ⟨exRun, get_all_files_eq_declarative none none false 0 10 ["r"] exRoot.2,
      List.Perm.refl exRun⟩
    ⟨exRun, get_all_files_eq_declarative none none false 0 10 ["r"] exRoot.2,
      List.Perm.refl exRun⟩

end FindDup
